import Mathlib

/-!
# Verification of the Trakt episode gap filler core

Shallow embedding of `trakt_gap_filler.py`. Timestamps are modelled as
rationals (seconds); a `datetime` value parsed from a string becomes a `ℚ`,
and an absent or unparseable timestamp string becomes `none` (per the spec,
"unparseable" and "absent" are both treated as "no anchor available", and
the input contract of the interface section delivers ISO-8601 timestamps).
`datetime.now()` is modelled as an explicit `now : ℚ` parameter.
Python `timedelta` arithmetic (including division of an interval by an
integer) is exact rational arithmetic here; the microsecond rounding of
CPython is below the granularity of this model.
-/

/-- One minute, in seconds. -/
def minute : ℚ := 60

/-- One hour, in seconds. -/
def hour : ℚ := 3600

/-- One day, in seconds. -/
def day : ℚ := 86400

/-- An episode key `(season, episode)`, compared like a Python tuple. -/
abbrev EpisodeKey := Nat × Nat

/-- Python tuple `<` on episode keys: lexicographic by season then episode. -/
def keyLt (a b : EpisodeKey) : Prop := a.1 < b.1 ∨ (a.1 = b.1 ∧ a.2 < b.2)

/-- Python tuple `<=` on episode keys. -/
def keyLe (a b : EpisodeKey) : Prop := a.1 < b.1 ∨ (a.1 = b.1 ∧ a.2 ≤ b.2)

instance : DecidableRel keyLt := fun a b => by unfold keyLt; infer_instance

instance : DecidableRel keyLe := fun a b => by unfold keyLe; infer_instance

instance : IsTotal EpisodeKey keyLe :=
  ⟨by intro a b; unfold keyLe; omega⟩

instance : IsTrans EpisodeKey keyLe :=
  ⟨by intro a b c hab hbc; unfold keyLe at hab hbc ⊢; omega⟩

theorem keyLt_trans {a b c : EpisodeKey} (hab : keyLt a b) (hbc : keyLt b c) :
    keyLt a c := by unfold keyLt at hab hbc ⊢; omega

theorem keyLt_asymm {a b : EpisodeKey} (hab : keyLt a b) : ¬ keyLt b a := by
  unfold keyLt at hab ⊢; omega

theorem keyLt_irrefl (a : EpisodeKey) : ¬ keyLt a a := by unfold keyLt; omega

theorem keyLe_of_lt {a b : EpisodeKey} (h : keyLt a b) : keyLe a b := by
  unfold keyLt at h; unfold keyLe; omega

theorem keyLe_refl (a : EpisodeKey) : keyLe a a := by unfold keyLe; omega

theorem keyLt_of_le_of_ne {a b : EpisodeKey} (h : keyLe a b) (hne : a ≠ b) :
    keyLt a b := by
  rcases a with ⟨a1, a2⟩; rcases b with ⟨b1, b2⟩
  unfold keyLe at h; unfold keyLt
  have hc : ¬(a1 = b1 ∧ a2 = b2) := by
    intro hc
    exact hne (by rw [hc.1, hc.2])
  omega

theorem keyLt_of_le_of_lt {a b c : EpisodeKey} (h1 : keyLe a b)
    (h2 : keyLt b c) : keyLt a c := by
  unfold keyLe at h1; unfold keyLt at h2 ⊢; omega

/-- An element of the episode list returned by `get_all_episodes`:
season/episode numbers, an opaque id payload, and an optional
`first_aired` timestamp. -/
structure Episode where
  season : Nat
  episode : Nat
  ids : Nat
  first_aired : Option ℚ
deriving DecidableEq, Repr

/-- The `(season, episode)` tuple of an episode dict. -/
def Episode.key (e : Episode) : EpisodeKey := (e.season, e.episode)

/-- The gap dict built by `find_all_missing_episodes` for an unwatched
episode lying between the first and last watched keys. -/
structure GapInfo where
  season : Nat
  episode : Nat
  ids : Nat
  first_aired : Option ℚ
  prev_watched : Option EpisodeKey
  next_watched : Option EpisodeKey
  prev_watched_at : Option ℚ
  next_watched_at : Option ℚ
deriving DecidableEq, Repr

/-- The `(season, episode)` tuple of a gap dict. -/
def GapInfo.key (g : GapInfo) : EpisodeKey := (g.season, g.episode)

/-- The result dict of `find_all_missing_episodes`. -/
structure MissingResult where
  beginning : List Episode
  gaps : List GapInfo
  ending : List Episode
deriving DecidableEq, Repr

/-- The episode keys recorded across the three regions of a
`MissingResult`, beginning first, then gaps, then ending. -/
def MissingResult.regionKeys (r : MissingResult) : List EpisodeKey :=
  r.beginning.map Episode.key ++ r.gaps.map GapInfo.key ++ r.ending.map Episode.key

/-- The scan of the sorted watched list in `find_all_missing_episodes`
(lines 186-191): walk the list keeping the last key seen below `ep`;
stop at the first key above `ep`. -/
def findNeighbors (ep : EpisodeKey) :
    List EpisodeKey → Option EpisodeKey → Option EpisodeKey × Option EpisodeKey
  | [], acc => (acc, none)
  | w :: ws, acc =>
    if keyLt w ep then findNeighbors ep ws (some w)
    else if keyLt ep w then (acc, some w)
    else findNeighbors ep ws acc

/-- Build the gap dict for one unwatched episode (lines 182-202).
`ws` is the sorted watched key list; `history` is the per-show watch
history lookup (`dict.get`). -/
def mkGapInfo (history : EpisodeKey → Option ℚ) (ws : List EpisodeKey)
    (ep : Episode) : GapInfo :=
  { season := ep.season
    episode := ep.episode
    ids := ep.ids
    first_aired := ep.first_aired
    prev_watched := (findNeighbors ep.key ws none).1
    next_watched := (findNeighbors ep.key ws none).2
    prev_watched_at :=
      match (findNeighbors ep.key ws none).1 with
      | some k => history k
      | none => none
    next_watched_at :=
      match (findNeighbors ep.key ws none).2 with
      | some k => history k
      | none => none }

/-- The categorisation loop of `find_all_missing_episodes` (lines 170-203):
skip watched episodes, and place each unwatched episode in beginning,
ending, or gaps according to its key. -/
def partitionLoop (watched : List EpisodeKey) (ws : List EpisodeKey)
    (first last : EpisodeKey) (history : EpisodeKey → Option ℚ) :
    List Episode → MissingResult
  | [] => ⟨[], [], []⟩
  | ep :: rest =>
    let r := partitionLoop watched ws first last history rest
    if ep.key ∈ watched then r
    else if keyLt ep.key first then { r with beginning := ep :: r.beginning }
    else if keyLt last ep.key then { r with ending := ep :: r.ending }
    else { r with gaps := mkGapInfo history ws ep :: r.gaps }

/-- Model of `find_all_missing_episodes` (lines 150-205). The Python `set` of
watched keys is modelled as a list considered up to membership;
`sorted(list(watched_episodes))` becomes dedup + insertion sort. -/
def findAllMissingEpisodes (watched : List EpisodeKey)
    (allEpisodes : List Episode) (history : EpisodeKey → Option ℚ) :
    MissingResult :=
  match List.insertionSort keyLe watched.dedup with
  | [] => ⟨allEpisodes, [], []⟩
  | w0 :: rest =>
    partitionLoop watched (w0 :: rest) w0 ((w0 :: rest).getLastD w0)
      history allEpisodes

/-- Consecutive differences of a list, `l[i+1] - l[i]`
(the loop at lines 138-141). -/
def diffs : List ℚ → List ℚ
  | a :: b :: rest => (b - a) :: diffs (b :: rest)
  | _ => []

/-- Model of `calculate_average_interval` (lines 128-147). The history dict is a
list of key/timestamp pairs; a `none` value models an absent (falsy)
timestamp string filtered out by the comprehension. -/
def calculateAverageInterval (history : List (EpisodeKey × Option ℚ)) : ℚ :=
  if history.length < 2 then 2 * day
  else
    let dates := List.insertionSort (· ≤ ·) (history.filterMap (fun h => h.2))
    if dates.length < 2 then 2 * day
    else
      let intervals := (diffs dates).filter (fun d => decide (0 < d ∧ d < 365 * day))
      if intervals.isEmpty then 2 * day
      else intervals.sum / (intervals.length : ℚ)

example : calculateAverageInterval [((1,1), some 0), ((1,2), some (2*day)), ((1,3), some (4*day))] = 2 * day := by
  norm_num [calculateAverageInterval, diffs, day]

example :
    findAllMissingEpisodes [(1,1),(1,3)]
      [⟨1,1,10,none⟩, ⟨1,2,11,none⟩, ⟨1,3,12,none⟩, ⟨1,4,13,none⟩]
      (fun k => if k = (1,1) then some 5 else none) =
    ⟨[], [⟨1,2,11,none, some (1,1), some (1,3), some 5, none⟩], [⟨1,4,13,none⟩]⟩ := by
  decide

/-- The raise-only clamp-to-air step shared by the synthesis routines
(for example lines 300-304): if the episode has a known air date and the
proposed timestamp precedes `air + 12h`, replace it with that floor. -/
def clampRaise (air : Option ℚ) (proposed : ℚ) : ℚ :=
  match air with
  | none => proposed
  | some a =>
    let earliest := a + 12 * hour
    if proposed < earliest then earliest else proposed

/-- The date assigned in the both-anchors-known branch of
`calculate_intelligent_dates_for_gaps` (lines 231-239) to the gap with
1-based index `idx` in its sorted group of size `cnt`. -/
def bothDate (p n interval : ℚ) (cnt idx : Nat) (air : Option ℚ) : ℚ :=
  let proposed := p + interval * (idx : ℚ)
  match air with
  | none => proposed
  | some a =>
    let p1 := clampRaise (some a) proposed
    if n < p1 then n - 30 * minute * ((cnt : ℚ) - (idx : ℚ)) else p1

/-- The loop of the both-anchors-known branch, walking the sorted group
with a 1-based index. -/
def assignBoth (p n interval : ℚ) (cnt : Nat) :
    Nat → List GapInfo → List (GapInfo × ℚ)
  | _, [] => []
  | idx, g :: gs =>
    (g, bothDate p n interval cnt idx g.first_aired) ::
      assignBoth p n interval cnt (idx + 1) gs

/-- The only-previous-anchor branch (lines 243-252): `prev + 2*idx` days
with a 1-based index, then clamp-to-air. -/
def assignPrevOnly (p : ℚ) : Nat → List GapInfo → List (GapInfo × ℚ)
  | _, [] => []
  | idx, g :: gs =>
    (g, clampRaise g.first_aired (p + 2 * day * (idx : ℚ))) ::
      assignPrevOnly p (idx + 1) gs

/-- The only-next-anchor branch (lines 254-263): the group is walked in
reverse with a 1-based reverse index, so the gap at 0-based ascending
position `j` of a group of size `cnt` gets `next - 2*(cnt-j)` days,
then clamp-to-air. -/
def assignNextOnly (n : ℚ) (cnt : Nat) : Nat → List GapInfo → List (GapInfo × ℚ)
  | _, [] => []
  | j, g :: gs =>
    (g, clampRaise g.first_aired (n - 2 * day * ((cnt : ℚ) - (j : ℚ)))) ::
      assignNextOnly n cnt (j + 1) gs

/-- The no-anchor branch (lines 265-273), with a 0-based index: if the air
date is known, `air + min(idx+1, 7) days + 20 hours`; otherwise
`now - (cnt - idx)` days. -/
def assignNeither (now : ℚ) (cnt : Nat) : Nat → List GapInfo → List (GapInfo × ℚ)
  | _, [] => []
  | idx, g :: gs =>
    (g, match g.first_aired with
        | some a => a + day * ((min (idx + 1) 7 : Nat) : ℚ) + 20 * hour
        | none => now - day * ((cnt : ℚ) - (idx : ℚ))) ::
      assignNeither now cnt (idx + 1) gs

/-- Python tuple-key sort order used for gap dicts
(`key=lambda x: (x['season'], x['episode'])`). -/
def gapLe (a b : GapInfo) : Prop := keyLe a.key b.key

instance : DecidableRel gapLe := fun a b => by unfold gapLe; infer_instance

instance : IsTotal GapInfo gapLe :=
  ⟨fun a b => total_of keyLe a.key b.key⟩

instance : IsTrans GapInfo gapLe :=
  ⟨fun _ _ _ hab hbc => Trans.trans (r := keyLe) hab hbc⟩

/-- Processing of one gap group in `calculate_intelligent_dates_for_gaps`
(lines 220-273): read the anchor timestamps off the first member (all
members of a group produced by the gap detector share them), sort the
group by episode key, and dispatch on which anchors are known. The output
pairs each gap of the sorted group with its computed `calculated_watched_at`. -/
def processGroup (now : ℚ) (group : List GapInfo) : List (GapInfo × ℚ) :=
  match group with
  | [] => []
  | g0 :: _ =>
    let sorted := List.insertionSort gapLe group
    let cnt := sorted.length
    match g0.prev_watched_at, g0.next_watched_at with
    | some p, some n => assignBoth p n ((n - p) / ((cnt : ℚ) + 1)) cnt 1 sorted
    | some p, none => assignPrevOnly p 1 sorted
    | none, some n => assignNextOnly n cnt 0 sorted
    | none, none => assignNeither now cnt 0 sorted

/-- The neighbor pair a gap dict is grouped by (line 215). -/
def gapKeyPair (g : GapInfo) : Option EpisodeKey × Option EpisodeKey :=
  (g.prev_watched, g.next_watched)

/-- First occurrences of a list, in order: models the insertion order of
keys of a Python dict built by the grouping loop (lines 213-218). -/
def firstOccurrences {α : Type} [DecidableEq α] :
    List α → List α → List α
  | _, [] => []
  | seen, a :: l =>
    if a ∈ seen then firstOccurrences seen l
    else a :: firstOccurrences (a :: seen) l

/-- The groups of `calculate_intelligent_dates_for_gaps`: one group per
distinct `(prev_watched, next_watched)` pair, in first-occurrence order,
each group keeping the input order of its members. -/
def gapGroups (gaps : List GapInfo) : List (List GapInfo) :=
  (firstOccurrences [] (gaps.map gapKeyPair)).map
    (fun k => gaps.filter (fun g => decide (gapKeyPair g = k)))

/-- Model of `calculate_intelligent_dates_for_gaps` (lines 208-275), as the
association of each gap with its computed date. The Python function
returns the input list with each dict annotated in place; every
`(gap, date)` pair of that output appears here, arranged group by group. -/
def calculateIntelligentDatesForGaps (now : ℚ) (gaps : List GapInfo) :
    List (GapInfo × ℚ) :=
  (gapGroups gaps).flatMap (processGroup now)

/-- Python tuple-key sort order on episode dicts (line 281 and 314). -/
def epLe (a b : Episode) : Prop := keyLe a.key b.key

instance : DecidableRel epLe := fun a b => by unfold epLe; infer_instance

instance : IsTotal Episode epLe :=
  ⟨fun a b => total_of keyLe a.key b.key⟩

instance : IsTrans Episode epLe :=
  ⟨fun _ _ _ hab hbc => Trans.trans (r := keyLe) hab hbc⟩

/-- The scan for the first episode of a list carrying a parseable air date
(the loops at lines 287-292 and 320-325). -/
def firstParseableAir : List Episode → Option ℚ
  | [] => none
  | e :: rest =>
    match e.first_aired with
    | some a => some a
    | none => firstParseableAir rest

/-- The backward walk of `calculate_dates_for_beginning` (lines 296-306):
1-based index over the reversed sorted list, `anchor - avg*idx`, then
clamp-to-air. -/
def walkBack (anchor avg : ℚ) : Nat → List Episode → List (Episode × ℚ)
  | _, [] => []
  | idx, ep :: rest =>
    (ep, clampRaise ep.first_aired (anchor - avg * (idx : ℚ))) ::
      walkBack anchor avg (idx + 1) rest

/-- The forward walk of `calculate_dates_for_ending` (lines 329-339). -/
def walkForward (anchor avg : ℚ) : Nat → List Episode → List (Episode × ℚ)
  | _, [] => []
  | idx, ep :: rest =>
    (ep, clampRaise ep.first_aired (anchor + avg * (idx : ℚ))) ::
      walkForward anchor avg (idx + 1) rest

/-- Model of `calculate_dates_for_beginning` (lines 278-308). The output keeps the
sorted ascending episode order of the mutated input list. -/
def calculateDatesForBeginning (now : ℚ) (episodes : List Episode)
    (firstWatchedDate : Option ℚ) (avgInterval : ℚ) : List (Episode × ℚ) :=
  let sorted := List.insertionSort epLe episodes
  let anchorDate :=
    match firstWatchedDate with
    | some d => d
    | none =>
      match firstParseableAir sorted.reverse with
      | some la => la + 30 * day
      | none => now
  (walkBack anchorDate avgInterval 1 sorted.reverse).reverse

/-- Model of `calculate_dates_for_ending` (lines 311-341). -/
def calculateDatesForEnding (now : ℚ) (episodes : List Episode)
    (lastWatchedDate : Option ℚ) (avgInterval : ℚ) : List (Episode × ℚ) :=
  let sorted := List.insertionSort epLe episodes
  let anchorDate :=
    match lastWatchedDate with
    | some d => d
    | none =>
      match firstParseableAir sorted with
      | some ea => ea - 30 * day
      | none => now - 365 * day
  walkForward anchorDate avgInterval 1 sorted

example :
    (calculateDatesForBeginning 0
      [⟨1,1,0,none⟩, ⟨1,2,1,none⟩, ⟨1,3,2,none⟩] (some (31*day)) (2*day)).map
        Prod.snd = [25*day, 27*day, 29*day] := by
  norm_num [calculateDatesForBeginning, walkBack, clampRaise, epLe, keyLe,
    Episode.key, day]

example :
    (processGroup 0 [⟨1,2,0,none, some (1,1), some (1,3), some 0, some (4*day)⟩]).map
      Prod.snd = [2*day] := by
  norm_num [processGroup, assignBoth, bothDate, day]

/-!
## Selection parser

Python strings are modelled at the character level as `List Char`, with
the string operations `parse_selection` uses translated to structural
functions (Lean `String` is UTF-8-position based and does not reduce
well in the kernel). Python `int()` accepting underscore separators or
non-ASCII digits is outside the tokens this parser meets and is not
modelled.
-/

/-- A Python string, as its character list. -/
abbrev PyStr := List Char

/-- Helper of `pyWords`: accumulate the current word (reversed). -/
def pyWordsAux (cur : PyStr) : PyStr → List PyStr
  | [] => if cur.isEmpty then [] else [cur.reverse]
  | c :: rest =>
    if c.isWhitespace then
      if cur.isEmpty then pyWordsAux [] rest
      else cur.reverse :: pyWordsAux [] rest
    else pyWordsAux (c :: cur) rest

/-- Python `str.split()` with no argument: split on whitespace runs,
dropping empty words (leading/trailing whitespace included, so the
preceding `strip()` is absorbed). -/
def pyWords (s : PyStr) : List PyStr := pyWordsAux [] s

/-- Helper of `pySplit`. -/
def pySplitAux (sep : Char) (cur : PyStr) : PyStr → List PyStr
  | [] => [cur.reverse]
  | c :: rest =>
    if c = sep then cur.reverse :: pySplitAux sep [] rest
    else pySplitAux sep (c :: cur) rest

/-- Python `str.split(sep)`: split at every separator, keeping empties. -/
def pySplit (sep : Char) (s : PyStr) : List PyStr := pySplitAux sep [] s

/-- Digits-only string to number, for `pyInt?`. -/
def pyDigits? (ds : PyStr) : Option Nat :=
  if ds.isEmpty then none
  else if ds.all Char.isDigit then
    some (ds.foldl (fun acc c => 10 * acc + (c.toNat - 48)) 0)
  else none

/-- Python `int(s)`: strip whitespace, optional sign, decimal digits;
anything else raises `ValueError`, modelled as `none`. -/
def pyInt? (s : PyStr) : Option Int :=
  let t := ((s.dropWhile Char.isWhitespace).reverse.dropWhile
    Char.isWhitespace).reverse
  match t with
  | '-' :: ds => (pyDigits? ds).map (fun n => -(n : Int))
  | '+' :: ds => (pyDigits? ds).map (fun n => (n : Int))
  | ds => (pyDigits? ds).map (fun n => (n : Int))

/-- Python `range(a, b + 1)` over integers with `a ≤ b`. -/
def pyRangeIncl (a b : Int) : List Int :=
  (List.range (b + 1 - a).toNat).map (fun k => a + (k : Int))

/-- Python `s[:-k]`. -/
def pyDropRight (s : PyStr) (k : Nat) : PyStr := s.take (s.length - k)


/-- Python `s.endswith(suffix)`. -/
def pyEndsWith (s suffix : PyStr) : Bool := suffix.isSuffixOf s

/-- Processing of a single token of `parse_selection` (lines 380-419).
`Except.error ()` models an uncaught `ValueError` escaping to the handler
wrapping the whole token loop; `Except.ok []` models a token skipped with
a printed warning. -/
def tokenResult (maxNum : Int) (part : PyStr) :
    Except Unit (List (Int × PyStr)) :=
  if '-' ∈ part ∧ ¬('b' ∈ part ∨ 'e' ∈ part) then
    match pySplit '-' part with
    | [s1, s2] =>
      match pyInt? s1, pyInt? s2 with
      | some a, some b =>
        if a < 1 ∨ b > maxNum ∨ a > b then .ok []
        else .ok ((pyRangeIncl a b).map (fun k => (k, ([] : PyStr))))
      | _, _ => .error ()
    | _ => .error ()
  else
    let ms :=
      if pyEndsWith part ['b', 'e'] then (['b', 'e'], pyDropRight part 2)
      else if pyEndsWith part ['b'] then (['b'], pyDropRight part 1)
      else if pyEndsWith part ['e'] then (['e'], pyDropRight part 1)
      else (([] : PyStr), part)
    if '-' ∈ ms.2 then
      match pySplit '-' ms.2 with
      | [s1, s2] =>
        match pyInt? s1, pyInt? s2 with
        | some a, some b =>
          if a < 1 ∨ b > maxNum ∨ a > b then .ok []
          else .ok ((pyRangeIncl a b).map (fun k => (k, ms.1)))
        | _, _ => .error ()
      | _ => .error ()
    else
      match pyInt? ms.2 with
      | some num =>
        if num < 1 ∨ num > maxNum then .ok [] else .ok [(num, ms.1)]
      | none => .error ()

/-- The token loop of `parse_selection`, inside its `try` block: results
are concatenated in token order, and the first uncaught `ValueError`
aborts the loop. -/
def selectionLoop (maxNum : Int) : List PyStr → Except Unit (List (Int × PyStr))
  | [] => .ok []
  | t :: ts =>
    match tokenResult maxNum t with
    | .error e => .error e
    | .ok r =>
      match selectionLoop maxNum ts with
      | .error e => .error e
      | .ok rest => .ok (r ++ rest)

/-- Model of `parse_selection` (lines 374-425): split the input into tokens and run
the loop; a `ValueError` reaching the handler makes the whole call return
the empty selection. -/
def parseSelection (input : PyStr) (maxNum : Int) : List (Int × PyStr) :=
  match selectionLoop maxNum (pyWords input) with
  | .ok l => l
  | .error _ => []

example : parseSelection ['1', ' ', '5', 'x'] 10 = [] := by decide

example :
    parseSelection ['1', '-', '3', 'b', 'e'] 10 =
      [(1, ['b', 'e']), (2, ['b', 'e']), (3, ['b', 'e'])] := by decide

example : parseSelection ['1'] 10 = [(1, [])] := by decide

example : parseSelection ['1', ' ', '9', '9', ' ', '2'] 10 = [(1, []), (2, [])] := by
  decide

/-!
## Interval estimator: claims C5 and C9
-/

/-- The Interval Estimator as the spec words it: 2 days when fewer than
two distinct (parseable) timestamps exist; otherwise sort, take
consecutive differences, discard outliers, average, with the 2-day
fallback when everything was discarded. -/
def averageIntervalSpec (history : List (EpisodeKey × Option ℚ)) : ℚ :=
  if ((history.filterMap (fun h => h.2)).dedup).length < 2 then 2 * day
  else
    let dates := List.insertionSort (· ≤ ·) (history.filterMap (fun h => h.2))
    let intervals := (diffs dates).filter (fun d => decide (0 < d ∧ d < 365 * day))
    if intervals.isEmpty then 2 * day
    else intervals.sum / (intervals.length : ℚ)

theorem diffs_eq_zero_of_const {a : ℚ} :
    ∀ l : List ℚ, (∀ x ∈ l, x = a) → ∀ d ∈ diffs l, d = 0 := by
  intro l
  induction l with
  | nil => intro _ d hd; simp [diffs] at hd
  | cons x t ih =>
    intro hall d hd
    match t, hd with
    | [], hd => simp [diffs] at hd
    | y :: rest, hd =>
      rw [diffs] at hd
      rcases List.mem_cons.1 hd with h | h
      · have hx : x = a := hall x (by simp)
        have hy : y = a := hall y (by simp)
        rw [h, hx, hy]; ring
      · exact ih (fun z hz => hall z (List.mem_cons_of_mem x hz)) d h

theorem sum_bounds {B : ℚ} :
    ∀ l : List ℚ, (∀ x ∈ l, 0 < x ∧ x < B) → l ≠ [] →
      0 < l.sum ∧ l.sum < (l.length : ℚ) * B := by
  intro l
  induction l with
  | nil => intro _ h; exact absurd rfl h
  | cons x t ih =>
    intro hall _
    have hx := hall x (by simp)
    match t with
    | [] =>
      refine ⟨by simpa using hx.1, ?_⟩
      simpa using hx.2
    | y :: rest =>
      have ht := ih (fun z hz => hall z (List.mem_cons_of_mem x hz)) (by simp)
      constructor
      · have : (0 : ℚ) < x + (y :: rest).sum := by linarith [hx.1, ht.1]
        simpa using this
      · have hlen : ((x :: y :: rest).length : ℚ) = ((y :: rest).length : ℚ) + 1 := by
          push_cast [List.length_cons]
          ring
        have : x + (y :: rest).sum < ((y :: rest).length : ℚ) * B + B := by
          linarith [hx.2, ht.2]
        rw [List.sum_cons, hlen]
        linarith

/-- C5: calculate_average_interval returns exactly 2 days when fewer than
two distinct timestamps exist in the history; otherwise it sorts all
parseable timestamps, takes consecutive differences, discards every
interval that is not strictly between 0 and 365 days, and returns the
arithmetic mean of the remainder, falling back to the 2-day default when
all were discarded; in particular the history
(1,1) -> 2024-01-01, (1,2) -> 2024-01-03, (1,3) -> 2024-01-05 yields
exactly 2 days. -/
theorem c5_average_interval_refines_spec :
    (∀ history, calculateAverageInterval history = averageIntervalSpec history) ∧
    calculateAverageInterval
      [((1,1), some 0), ((1,2), some (2 * day)), ((1,3), some (4 * day))] =
      2 * day := by
  constructor
  · intro history
    simp only [calculateAverageInterval, averageIntervalSpec]
    by_cases hd : ((history.filterMap (fun h => h.2)).dedup).length < 2
    · rw [if_pos hd]
      by_cases h1 : history.length < 2
      · rw [if_pos h1]
      · rw [if_neg h1]
        by_cases h2 :
            (List.insertionSort (· ≤ ·) (history.filterMap (fun h => h.2))).length < 2
        · rw [if_pos h2]
        · rw [if_neg h2]
          have hPlen : 2 ≤ (history.filterMap (fun h => h.2)).length := by
            simpa [List.length_insertionSort] using Nat.le_of_not_lt h2
          have hPne : history.filterMap (fun h => h.2) ≠ [] := by
            intro hnil
            rw [hnil] at hPlen
            simp at hPlen
          have hdne : (history.filterMap (fun h => h.2)).dedup ≠ [] := by
            intro hnil
            exact hPne ((List.dedup_eq_nil _).1 hnil)
          have hlen1 : ((history.filterMap (fun h => h.2)).dedup).length = 1 := by
            have := List.length_pos.2 hdne
            omega
          obtain ⟨a, ha⟩ := List.length_eq_one.1 hlen1
          have hall : ∀ x ∈ List.insertionSort (· ≤ ·)
              (history.filterMap (fun h => h.2)), x = a := by
            intro x hx
            have hxP : x ∈ history.filterMap (fun h => h.2) :=
              (List.perm_insertionSort _ _).mem_iff.1 hx
            have hxd : x ∈ (history.filterMap (fun h => h.2)).dedup :=
              List.mem_dedup.2 hxP
            rw [ha] at hxd
            simpa using hxd
          have hempty : ((diffs (List.insertionSort (· ≤ ·)
              (history.filterMap (fun h => h.2)))).filter
              (fun d => decide (0 < d ∧ d < 365 * day))) = [] := by
            rw [List.filter_eq_nil_iff]
            intro d hdm
            have hz := diffs_eq_zero_of_const _ hall d hdm
            simp [hz]
          rw [hempty]
          simp
    · rw [if_neg hd]
      have hdl : 2 ≤ ((history.filterMap (fun h => h.2)).dedup).length :=
        Nat.le_of_not_lt hd
      have hPlen : 2 ≤ (history.filterMap (fun h => h.2)).length :=
        le_trans hdl (List.Sublist.length_le (List.dedup_sublist _))
      have h1 : ¬ history.length < 2 := by
        have := List.length_filterMap_le (fun h => h.2) history
        omega
      have h2 : ¬ (List.insertionSort (· ≤ ·)
          (history.filterMap (fun h => h.2))).length < 2 := by
        rw [List.length_insertionSort]
        omega
      rw [if_neg h1, if_neg h2]
  · norm_num [calculateAverageInterval, diffs, day]

/-- C9: for every input history, calculate_average_interval returns a
duration strictly between 0 and 365 days: every branch yields either the
2-day default or the arithmetic mean of intervals each strictly between
0 and 365 days. -/
theorem c9_average_interval_bounds :
    ∀ history, 0 < calculateAverageInterval history ∧
      calculateAverageInterval history < 365 * day := by
  intro history
  simp only [calculateAverageInterval]
  split
  · constructor <;> norm_num [day]
  · split
    · constructor <;> norm_num [day]
    · split
      · constructor <;> norm_num [day]
      · rename_i hne0
        have hne : ((diffs (List.insertionSort (· ≤ ·)
            (history.filterMap (fun h => h.2)))).filter
            (fun d => decide (0 < d ∧ d < 365 * day))) ≠ [] := by
          intro hnil
          rw [hnil] at hne0
          simp at hne0
        have hall : ∀ x ∈ ((diffs (List.insertionSort (· ≤ ·)
            (history.filterMap (fun h => h.2)))).filter
            (fun d => decide (0 < d ∧ d < 365 * day))), 0 < x ∧ x < 365 * day := by
          intro x hx
          have hm := List.mem_filter.1 hx
          simpa using of_decide_eq_true hm.2
        have hb := sum_bounds _ hall hne
        have hlpos : (0:ℚ) < ((((diffs (List.insertionSort (· ≤ ·)
            (history.filterMap (fun h => h.2)))).filter
            (fun d => decide (0 < d ∧ d < 365 * day))).length : ℚ)) := by
          have := List.length_pos.2 hne
          exact_mod_cast this
        constructor
        · exact div_pos hb.1 hlpos
        · rw [div_lt_iff₀ hlpos]
          calc ((diffs (List.insertionSort (· ≤ ·)
              (history.filterMap (fun h => h.2)))).filter
              (fun d => decide (0 < d ∧ d < 365 * day))).sum
              < ((((diffs (List.insertionSort (· ≤ ·)
                (history.filterMap (fun h => h.2)))).filter
                (fun d => decide (0 < d ∧ d < 365 * day))).length : ℚ) * (365 * day)) :=
                hb.2
            _ = 365 * day * (((diffs (List.insertionSort (· ≤ ·)
                (history.filterMap (fun h => h.2)))).filter
                (fun d => decide (0 < d ∧ d < 365 * day))).length : ℚ) := by ring

/-!
## Gap detector: claims C1 and C6
-/

theorem key_mkGapInfo (history : EpisodeKey → Option ℚ) (ws : List EpisodeKey)
    (ep : Episode) : (mkGapInfo history ws ep).key = ep.key := rfl

theorem partitionLoop_perm (watched ws : List EpisodeKey)
    (first last : EpisodeKey) (history : EpisodeKey → Option ℚ) :
    ∀ eps : List Episode,
      ((partitionLoop watched ws first last history eps).regionKeys).Perm
        ((eps.map Episode.key).filter (fun k => decide (k ∉ watched))) := by
  intro eps
  induction eps with
  | nil => simp [partitionLoop, MissingResult.regionKeys]
  | cons ep rest ih =>
    simp only [partitionLoop]
    by_cases hw : ep.key ∈ watched
    · rw [if_pos hw]
      have hfilter : ((ep :: rest).map Episode.key).filter
          (fun k => decide (k ∉ watched)) =
          (rest.map Episode.key).filter (fun k => decide (k ∉ watched)) := by
        simp [hw]
      rw [hfilter]
      exact ih
    · rw [if_neg hw]
      have hfilter : ((ep :: rest).map Episode.key).filter
          (fun k => decide (k ∉ watched)) =
          ep.key :: ((rest.map Episode.key).filter (fun k => decide (k ∉ watched))) := by
        simp [hw]
      rw [hfilter]
      by_cases h1 : keyLt ep.key first
      · rw [if_pos h1]
        simp only [MissingResult.regionKeys] at ih ⊢
        simpa using ih.cons ep.key
      · rw [if_neg h1]
        by_cases h2 : keyLt last ep.key
        · rw [if_pos h2]
          simp only [MissingResult.regionKeys] at ih ⊢
          have hmid :
              (((partitionLoop watched ws first last history rest).beginning.map
                  Episode.key ++
                (partitionLoop watched ws first last history rest).gaps.map
                  GapInfo.key) ++
                ep.key ::
                  (partitionLoop watched ws first last history rest).ending.map
                    Episode.key).Perm
              (ep.key ::
                (((partitionLoop watched ws first last history rest).beginning.map
                    Episode.key ++
                  (partitionLoop watched ws first last history rest).gaps.map
                    GapInfo.key) ++
                  (partitionLoop watched ws first last history rest).ending.map
                    Episode.key)) :=
            List.perm_middle
          simpa using hmid.trans (ih.cons ep.key)
        · rw [if_neg h2]
          simp only [MissingResult.regionKeys] at ih ⊢
          have hmid1 :
              (((partitionLoop watched ws first last history rest).beginning.map
                  Episode.key ++
                ep.key ::
                  (partitionLoop watched ws first last history rest).gaps.map
                    GapInfo.key)).Perm
              (ep.key ::
                ((partitionLoop watched ws first last history rest).beginning.map
                    Episode.key ++
                  (partitionLoop watched ws first last history rest).gaps.map
                    GapInfo.key)) :=
            List.perm_middle
          have hmid := hmid1.append_right
            ((partitionLoop watched ws first last history rest).ending.map
              Episode.key)
          simpa [key_mkGapInfo] using hmid.trans (ih.cons ep.key)

/-- C1: the partition returned by find_all_missing_episodes is exhaustive
and disjoint: the keys across beginning, gaps and ending are exactly the
episode keys not in the watched set (as a permutation, hence with no
omissions); with distinct catalog keys there are no duplicates; and with
an empty watched set, every episode is beginning and gaps/ending are
empty. -/
theorem c1_partition_exhaustive_disjoint :
    ∀ (watched : List EpisodeKey) (allEps : List Episode)
      (history : EpisodeKey → Option ℚ),
      ((findAllMissingEpisodes watched allEps history).regionKeys).Perm
        ((allEps.map Episode.key).filter (fun k => decide (k ∉ watched))) ∧
      ((allEps.map Episode.key).Nodup →
        ((findAllMissingEpisodes watched allEps history).regionKeys).Nodup) ∧
      (watched = [] →
        findAllMissingEpisodes watched allEps history = ⟨allEps, [], []⟩) := by
  intro watched allEps history
  have hperm : ((findAllMissingEpisodes watched allEps history).regionKeys).Perm
      ((allEps.map Episode.key).filter (fun k => decide (k ∉ watched))) := by
    unfold findAllMissingEpisodes
    rcases hws : List.insertionSort keyLe watched.dedup with _ | ⟨w0, rest⟩
    · have hdnil : watched.dedup = [] := by
        have hp := List.perm_insertionSort keyLe watched.dedup
        rw [hws] at hp
        exact (hp.symm).eq_nil
      have hwnil : watched = [] := (List.dedup_eq_nil _).1 hdnil
      subst hwnil
      simp [MissingResult.regionKeys]
    · exact partitionLoop_perm watched (w0 :: rest) w0 ((w0 :: rest).getLastD w0)
        history allEps
  refine ⟨hperm, ?_, ?_⟩
  · intro hnd
    exact hperm.nodup_iff.2 (hnd.filter _)
  · intro hw
    subst hw
    rfl

theorem c1_partition_witness :
    ((findAllMissingEpisodes [(1,1),(1,3)]
      [⟨1,1,10,none⟩, ⟨1,2,11,none⟩, ⟨1,3,12,none⟩, ⟨1,4,13,none⟩]
      (fun k => if k = (1,1) then some 5 else none)).regionKeys).Nodup ∧
    findAllMissingEpisodes ([] : List EpisodeKey)
      [⟨1,1,10,none⟩, ⟨1,2,11,none⟩] (fun _ => none) =
      ⟨[⟨1,1,10,none⟩, ⟨1,2,11,none⟩], [], []⟩ :=
  ⟨(c1_partition_exhaustive_disjoint [(1,1),(1,3)]
      [⟨1,1,10,none⟩, ⟨1,2,11,none⟩, ⟨1,3,12,none⟩, ⟨1,4,13,none⟩]
      (fun k => if k = (1,1) then some 5 else none)).2.1 (by decide),
   (c1_partition_exhaustive_disjoint [] [⟨1,1,10,none⟩, ⟨1,2,11,none⟩]
      (fun _ => none)).2.2 rfl⟩

theorem findNeighbors_spec (ep : EpisodeKey) :
    ∀ (ws : List EpisodeKey) (acc : Option EpisodeKey),
      List.Pairwise keyLt ws →
      (∀ x, acc = some x → keyLt x ep) →
      (∀ p, (findNeighbors ep ws acc).1 = some p →
        (acc = some p ∨ p ∈ ws) ∧ keyLt p ep ∧
          ∀ w ∈ ws, keyLt w ep → keyLe w p) ∧
      (∀ q, (findNeighbors ep ws acc).2 = some q →
        q ∈ ws ∧ keyLt ep q ∧ ∀ w ∈ ws, keyLt ep w → keyLe q w) := by
  intro ws
  induction ws with
  | nil =>
    intro acc _ hacc
    constructor
    · intro p hp
      simp only [findNeighbors] at hp
      refine ⟨Or.inl hp, hacc p hp, ?_⟩
      intro w hw
      simp at hw
    · intro q hq
      simp [findNeighbors] at hq
  | cons w ws ih =>
    intro acc hs hacc
    have hs2 : List.Pairwise keyLt ws := hs.of_cons
    have hw_all : ∀ y ∈ ws, keyLt w y := (List.pairwise_cons.1 hs).1
    by_cases h1 : keyLt w ep
    · simp only [findNeighbors, if_pos h1]
      have hrec := ih (some w) hs2
        (by intro x hx; obtain rfl := Option.some.inj hx; exact h1)
      constructor
      · intro p hp
        obtain ⟨hmem, hlt, hmax⟩ := hrec.1 p hp
        refine ⟨?_, hlt, ?_⟩
        · rcases hmem with hm | hm
          · obtain rfl := Option.some.inj hm
            exact Or.inr (by simp)
          · exact Or.inr (List.mem_cons_of_mem w hm)
        · intro w2 hw2 hltw2
          rcases List.mem_cons.1 hw2 with rfl | hw2m
          · rcases hmem with hm | hm
            · obtain rfl := Option.some.inj hm
              exact keyLe_refl _
            · exact keyLe_of_lt (hw_all p hm)
          · exact hmax w2 hw2m hltw2
      · intro q hq
        obtain ⟨hmem, hlt, hmin⟩ := hrec.2 q hq
        refine ⟨List.mem_cons_of_mem w hmem, hlt, ?_⟩
        intro w2 hw2 hltw2
        rcases List.mem_cons.1 hw2 with rfl | hw2m
        · exact absurd hltw2 (keyLt_asymm h1)
        · exact hmin w2 hw2m hltw2
    · by_cases h2 : keyLt ep w
      · simp only [findNeighbors, if_neg h1, if_pos h2]
        constructor
        · intro p hp
          refine ⟨Or.inl hp, hacc p hp, ?_⟩
          intro w2 hw2 hltw2
          rcases List.mem_cons.1 hw2 with rfl | hw2m
          · exact absurd hltw2 (keyLt_asymm h2)
          · have hlt2 : keyLt ep w2 := keyLt_trans h2 (hw_all w2 hw2m)
            exact absurd hltw2 (keyLt_asymm hlt2)
        · intro q hq
          obtain rfl := Option.some.inj hq
          refine ⟨by simp, h2, ?_⟩
          intro w2 hw2 _
          rcases List.mem_cons.1 hw2 with rfl | hw2m
          · exact keyLe_refl _
          · exact keyLe_of_lt (hw_all w2 hw2m)
      · simp only [findNeighbors, if_neg h1, if_neg h2]
        have hrec := ih acc hs2 hacc
        constructor
        · intro p hp
          obtain ⟨hmem, hlt, hmax⟩ := hrec.1 p hp
          refine ⟨?_, hlt, ?_⟩
          · rcases hmem with hm | hm
            · exact Or.inl hm
            · exact Or.inr (List.mem_cons_of_mem w hm)
          · intro w2 hw2 hltw2
            rcases List.mem_cons.1 hw2 with rfl | hw2m
            · exact absurd hltw2 h1
            · exact hmax w2 hw2m hltw2
        · intro q hq
          obtain ⟨hmem, hlt, hmin⟩ := hrec.2 q hq
          refine ⟨List.mem_cons_of_mem w hmem, hlt, ?_⟩
          intro w2 hw2 hltw2
          rcases List.mem_cons.1 hw2 with rfl | hw2m
          · exact absurd hltw2 h2
          · exact hmin w2 hw2m hltw2

theorem partitionLoop_gaps_mem (watched ws : List EpisodeKey)
    (first last : EpisodeKey) (history : EpisodeKey → Option ℚ) :
    ∀ (eps : List Episode) (g : GapInfo),
      g ∈ (partitionLoop watched ws first last history eps).gaps →
      ∃ ep, ep ∈ eps ∧ g = mkGapInfo history ws ep := by
  intro eps
  induction eps with
  | nil =>
    intro g hg
    simp [partitionLoop] at hg
  | cons ep rest ih =>
    intro g hg
    simp only [partitionLoop] at hg
    by_cases hw : ep.key ∈ watched
    · rw [if_pos hw] at hg
      obtain ⟨e, he, hee⟩ := ih g hg
      exact ⟨e, List.mem_cons_of_mem _ he, hee⟩
    · rw [if_neg hw] at hg
      by_cases h1 : keyLt ep.key first
      · rw [if_pos h1] at hg
        obtain ⟨e, he, hee⟩ := ih g hg
        exact ⟨e, List.mem_cons_of_mem _ he, hee⟩
      · rw [if_neg h1] at hg
        by_cases h2 : keyLt last ep.key
        · rw [if_pos h2] at hg
          obtain ⟨e, he, hee⟩ := ih g hg
          exact ⟨e, List.mem_cons_of_mem _ he, hee⟩
        · rw [if_neg h2] at hg
          rcases List.mem_cons.1 hg with hgh | hgm
          · exact ⟨ep, by simp, hgh⟩
          · obtain ⟨e, he, hee⟩ := ih g hgm
            exact ⟨e, List.mem_cons_of_mem _ he, hee⟩

/-- C6: for every gap entry whose recorded neighbors both exist, the
neighbors are watched keys with prev < key < next, and no other watched
key lies strictly between the gap key and either neighbor. -/
theorem c6_gap_neighbors :
    ∀ (watched : List EpisodeKey) (allEps : List Episode)
      (history : EpisodeKey → Option ℚ) (g : GapInfo) (p q : EpisodeKey),
      g ∈ (findAllMissingEpisodes watched allEps history).gaps →
      g.prev_watched = some p → g.next_watched = some q →
      (p ∈ watched ∧ q ∈ watched) ∧
      (keyLt p g.key ∧ keyLt g.key q) ∧
      (∀ w ∈ watched, ¬(keyLt p w ∧ keyLt w g.key)) ∧
      (∀ w ∈ watched, ¬(keyLt g.key w ∧ keyLt w q)) := by
  intro watched allEps history g p q hg hp hq
  unfold findAllMissingEpisodes at hg
  rcases hws : List.insertionSort keyLe watched.dedup with _ | ⟨w0, rest⟩
  · rw [hws] at hg
    simp at hg
  · rw [hws] at hg
    have hperm : (w0 :: rest).Perm watched.dedup := by
      have hp2 := List.perm_insertionSort keyLe watched.dedup
      rw [hws] at hp2
      exact hp2
    have hmemws : ∀ x : EpisodeKey, x ∈ (w0 :: rest) ↔ x ∈ watched := by
      intro x
      rw [hperm.mem_iff, List.mem_dedup]
    have hnd : (w0 :: rest).Nodup := hperm.nodup_iff.2 (List.nodup_dedup watched)
    have hsorted : (w0 :: rest).Pairwise keyLe := by
      have hs := List.sorted_insertionSort keyLe watched.dedup
      rw [hws] at hs
      exact hs
    have hlt : (w0 :: rest).Pairwise keyLt :=
      (hsorted.and hnd).imp (fun h => keyLt_of_le_of_ne h.1 h.2)
    obtain ⟨ep, _, rfl⟩ := partitionLoop_gaps_mem watched (w0 :: rest) w0
      ((w0 :: rest).getLastD w0) history allEps g hg
    simp only [mkGapInfo] at hp hq
    have hspec := findNeighbors_spec ep.key (w0 :: rest) none hlt
      (by intro x hx; simp at hx)
    obtain ⟨hpmem, hplt, hpmax⟩ := hspec.1 p hp
    obtain ⟨hqmem, hqlt, hqmin⟩ := hspec.2 q hq
    have hpmem2 : p ∈ (w0 :: rest) := by
      rcases hpmem with h | h
      · exact absurd h (by simp)
      · exact h
    refine ⟨⟨(hmemws p).1 hpmem2, (hmemws q).1 hqmem⟩, ⟨hplt, hqlt⟩, ?_, ?_⟩
    · intro w hw hand
      have hwws : w ∈ (w0 :: rest) := (hmemws w).2 hw
      have hle := hpmax w hwws hand.2
      exact keyLt_irrefl w (keyLt_of_le_of_lt hle hand.1)
    · intro w hw hand
      have hwws : w ∈ (w0 :: rest) := (hmemws w).2 hw
      have hle := hqmin w hwws hand.1
      exact keyLt_irrefl q (keyLt_of_le_of_lt hle hand.2)

theorem c6_gap_neighbors_witness :
    keyLt ((1,1) : EpisodeKey) ((1,2) : EpisodeKey) ∧
    keyLt ((1,2) : EpisodeKey) ((1,3) : EpisodeKey) :=
  (c6_gap_neighbors [(1,1),(1,3)]
    [⟨1,1,10,none⟩, ⟨1,2,11,none⟩, ⟨1,3,12,none⟩]
    (fun _ => none)
    ⟨1,2,11,none, some (1,1), some (1,3), none, none⟩
    (1,1) (1,3) (by decide) rfl rfl).2.1

/-!
## Date synthesizer: claims C2, C3, C4, C7, C10
-/

/-- The gap-interpolation assignment as the claim words it: episode `i`
(1-indexed) of a run of `cnt` gaps between anchors `p < n` is proposed
`p + i*(n-p)/(cnt+1)`; clamp-to-air raises it to the floor; if the
clamped date exceeds `n`, the episode instead gets
`n - 30*(cnt-i)` minutes. -/
def gapDateSpec (p n : ℚ) (cnt i : Nat) (air : Option ℚ) : ℚ :=
  let proposed := p + ((n - p) / ((cnt : ℚ) + 1)) * (i : ℚ)
  match air with
  | none => proposed
  | some a =>
    let clamped := max proposed (a + 12 * hour)
    if n < clamped then n - 30 * minute * ((cnt : ℚ) - (i : ℚ)) else clamped

theorem clampRaise_eq_max (a proposed : ℚ) :
    clampRaise (some a) proposed = max proposed (a + 12 * hour) := by
  simp only [clampRaise]
  split
  · rename_i h
    exact (max_eq_right (le_of_lt h)).symm
  · rename_i h
    exact (max_eq_left (not_lt.1 h)).symm

theorem bothDate_eq_spec (p n : ℚ) (cnt i : Nat) (air : Option ℚ) :
    bothDate p n ((n - p) / ((cnt : ℚ) + 1)) cnt i air = gapDateSpec p n cnt i air := by
  cases air with
  | none => rfl
  | some a =>
    simp only [bothDate, gapDateSpec, clampRaise_eq_max]

theorem assignBoth_getElem? (p n interval : ℚ) (cnt : Nat) :
    ∀ (gs : List GapInfo) (base j : Nat),
      (assignBoth p n interval cnt base gs)[j]? =
        (gs[j]?).map
          (fun g => (g, bothDate p n interval cnt (base + j) g.first_aired)) := by
  intro gs
  induction gs with
  | nil =>
    intro base j
    simp [assignBoth]
  | cons g gs ih =>
    intro base j
    cases j with
    | zero => simp [assignBoth]
    | succ k =>
      have harith : base + 1 + k = base + (k + 1) := by omega
      simp only [assignBoth, List.getElem?_cons_succ]
      rw [ih (base + 1) k, harith]

theorem firstOccurrences_all_mem {α : Type} [DecidableEq α] (a : α) :
    ∀ (l : List α) (seen : List α), (∀ x ∈ l, x = a) → a ∈ seen →
      firstOccurrences seen l = [] := by
  intro l
  induction l with
  | nil => intro seen _ _; rfl
  | cons x t ih =>
    intro seen hall hmem
    have hx : x = a := hall x (by simp)
    subst hx
    simp only [firstOccurrences, if_pos hmem]
    exact ih seen (fun z hz => hall z (List.mem_cons_of_mem x hz)) hmem

theorem gapGroups_const (gaps : List GapInfo) (g0 : GapInfo)
    (rest : List GapInfo) (hg : gaps = g0 :: rest)
    (hall : ∀ g ∈ gaps, gapKeyPair g = gapKeyPair g0) :
    gapGroups gaps = [gaps] := by
  subst hg
  have hmap : ∀ k ∈ (g0 :: rest).map gapKeyPair, k = gapKeyPair g0 := by
    intro k hk
    obtain ⟨g, hg2, rfl⟩ := List.mem_map.1 hk
    exact hall g hg2
  have hfo : firstOccurrences [] ((g0 :: rest).map gapKeyPair) = [gapKeyPair g0] := by
    simp only [List.map_cons, firstOccurrences]
    rw [if_neg (by simp)]
    rw [firstOccurrences_all_mem (gapKeyPair g0) (rest.map gapKeyPair)
      [gapKeyPair g0]
      (fun z hz => hmap z (List.mem_cons_of_mem _ hz)) (by simp)]
  simp only [List.map_cons] at hfo
  simp only [gapGroups, List.map_cons, hfo, List.map_nil]
  congr 1
  rw [List.filter_eq_self]
  intro g hg2
  simp [hall g hg2]

/-- C4: in a run of gaps sharing the same neighbor pair with both anchors
known, the 1-indexed i-th episode of the sorted run gets
`prev + i*(next-prev)/(count+1)`, clamped to air, with the past-next
reassignment `next - 30*(count-i)` minutes; the full gap routine on such
a run is exactly this per-run processing; and the single-gap
interpolation between anchors 4 days apart with no air date yields the
exact midpoint (prev 2024-01-01, next 2024-01-05 gives 2024-01-03,
encoded as seconds from the prev anchor). -/
theorem c4_gap_interpolation_formula :
    (∀ (now : ℚ) (group : List GapInfo) (g0 : GapInfo) (rest : List GapInfo)
      (p n : ℚ),
      group = g0 :: rest → g0.prev_watched_at = some p →
      g0.next_watched_at = some n →
      ∀ j : Nat,
        (processGroup now group)[j]? =
          ((List.insertionSort gapLe group)[j]?).map (fun g =>
            (g, gapDateSpec p n (List.insertionSort gapLe group).length (j + 1)
              g.first_aired))) ∧
    (∀ (now : ℚ) (gaps : List GapInfo) (g0 : GapInfo) (rest : List GapInfo),
      gaps = g0 :: rest → (∀ g ∈ gaps, gapKeyPair g = gapKeyPair g0) →
      calculateIntelligentDatesForGaps now gaps = processGroup now gaps) ∧
    ((processGroup 0
      [⟨1,2,0,none, some (1,1), some (1,3), some 0, some (4*day)⟩]).map
      Prod.snd = [2*day]) := by
  refine ⟨?_, ?_, ?_⟩
  · intro now group g0 rest p n hg hp hn j
    subst hg
    simp only [processGroup, hp, hn]
    rw [assignBoth_getElem?]
    have harith : 1 + j = j + 1 := by omega
    rw [harith]
    cases hmem : (List.insertionSort gapLe (g0 :: rest))[j]? with
    | none => rfl
    | some g =>
      simp [bothDate_eq_spec]
  · intro now gaps g0 rest hg hall
    rw [calculateIntelligentDatesForGaps, gapGroups_const gaps g0 rest hg hall,
      List.flatMap_cons, List.flatMap_nil, List.append_nil]
  · norm_num [processGroup, assignBoth, bothDate, day]

theorem pairwise_lt_range' : ∀ (len s : Nat), (List.range' s len).Pairwise (· < ·) := by
  intro len
  induction len with
  | zero => intro s; simp
  | succ k ih =>
    intro s
    rw [List.range'_succ s k 1]
    refine List.pairwise_cons.2 ⟨?_, ih (s + 1)⟩
    intro m hm
    have := (List.mem_range'_1.1 hm).1
    omega

theorem pairwise_lt_map_range' {f : Nat → ℚ} (hf : ∀ i j, i < j → f i < f j)
    (s len : Nat) : ((List.range' s len).map f).Pairwise (· < ·) := by
  rw [List.pairwise_map]
  exact (pairwise_lt_range' len s).imp (fun h => hf _ _ h)

theorem pairwise_le_map_range' {f : Nat → ℚ} (hf : ∀ i j, i ≤ j → f i ≤ f j)
    (s len : Nat) : ((List.range' s len).map f).Pairwise (· ≤ ·) := by
  rw [List.pairwise_map]
  exact (pairwise_lt_range' len s).imp (fun h => hf _ _ (Nat.le_of_lt h))

theorem assignBoth_snd_noair (p n interval : ℚ) (cnt : Nat) :
    ∀ (gs : List GapInfo) (base : Nat), (∀ g ∈ gs, g.first_aired = none) →
      (assignBoth p n interval cnt base gs).map Prod.snd =
        (List.range' base gs.length).map (fun (i : Nat) => p + interval * (i : ℚ)) := by
  intro gs
  induction gs with
  | nil => intro base _; rfl
  | cons g t ih =>
    intro base hair
    have hg : g.first_aired = none := hair g (by simp)
    simp only [assignBoth, List.map_cons, List.length_cons,
      List.range'_succ base t.length 1]
    rw [ih (base + 1) (fun z hz => hair z (List.mem_cons_of_mem g hz))]
    congr 1
    simp [bothDate, hg]

theorem assignPrevOnly_snd_noair (p : ℚ) :
    ∀ (gs : List GapInfo) (base : Nat), (∀ g ∈ gs, g.first_aired = none) →
      (assignPrevOnly p base gs).map Prod.snd =
        (List.range' base gs.length).map (fun (i : Nat) => p + 2 * day * (i : ℚ)) := by
  intro gs
  induction gs with
  | nil => intro base _; rfl
  | cons g t ih =>
    intro base hair
    have hg : g.first_aired = none := hair g (by simp)
    simp only [assignPrevOnly, List.map_cons, List.length_cons,
      List.range'_succ base t.length 1]
    rw [ih (base + 1) (fun z hz => hair z (List.mem_cons_of_mem g hz))]
    congr 1
    simp [clampRaise, hg]

theorem assignNextOnly_snd_noair (n : ℚ) (cnt : Nat) :
    ∀ (gs : List GapInfo) (base : Nat), (∀ g ∈ gs, g.first_aired = none) →
      (assignNextOnly n cnt base gs).map Prod.snd =
        (List.range' base gs.length).map
          (fun (i : Nat) => n - 2 * day * ((cnt : ℚ) - (i : ℚ))) := by
  intro gs
  induction gs with
  | nil => intro base _; rfl
  | cons g t ih =>
    intro base hair
    have hg : g.first_aired = none := hair g (by simp)
    simp only [assignNextOnly, List.map_cons, List.length_cons,
      List.range'_succ base t.length 1]
    rw [ih (base + 1) (fun z hz => hair z (List.mem_cons_of_mem g hz))]
    congr 1
    simp [clampRaise, hg]

theorem assignNeither_snd_noair (now : ℚ) (cnt : Nat) :
    ∀ (gs : List GapInfo) (base : Nat), (∀ g ∈ gs, g.first_aired = none) →
      (assignNeither now cnt base gs).map Prod.snd =
        (List.range' base gs.length).map
          (fun (i : Nat) => now - day * ((cnt : ℚ) - (i : ℚ))) := by
  intro gs
  induction gs with
  | nil => intro base _; rfl
  | cons g t ih =>
    intro base hair
    have hg : g.first_aired = none := hair g (by simp)
    simp only [assignNeither, List.map_cons, List.length_cons,
      List.range'_succ base t.length 1]
    rw [ih (base + 1) (fun z hz => hair z (List.mem_cons_of_mem g hz))]
    congr 1
    simp [hg]

/-- C10: for a run of gaps sharing both anchors with prev < next where no
entry has a parseable first-aired timestamp, the synthesized timestamps
are strictly increasing in episode order and lie strictly between the
two anchors. -/
theorem c10_gap_strict_between :
    ∀ (now : ℚ) (group : List GapInfo) (g0 : GapInfo) (rest : List GapInfo)
      (p n : ℚ),
      group = g0 :: rest → g0.prev_watched_at = some p →
      g0.next_watched_at = some n → p < n →
      (∀ g ∈ group, g.first_aired = none) →
      (((processGroup now group).map Prod.snd).Pairwise (· < ·)) ∧
      (∀ d ∈ (processGroup now group).map Prod.snd, p < d ∧ d < n) := by
  intro now group g0 rest p n hg hp hn hpn hair
  subst hg
  simp only [processGroup, hp, hn]
  have hairs : ∀ g ∈ List.insertionSort gapLe (g0 :: rest), g.first_aired = none :=
    fun g hgm => hair g ((List.perm_insertionSort gapLe (g0 :: rest)).subset hgm)
  have hlen : (List.insertionSort gapLe (g0 :: rest)).length = rest.length + 1 := by
    rw [List.length_insertionSort]
    simp
  have hcast : (0 : ℚ) < ((List.insertionSort gapLe (g0 :: rest)).length : ℚ) + 1 := by
    positivity
  have hintpos : 0 <
      (n - p) / (((List.insertionSort gapLe (g0 :: rest)).length : ℚ) + 1) :=
    div_pos (by linarith) hcast
  rw [assignBoth_snd_noair _ _ _ _ _ _ hairs]
  constructor
  · refine pairwise_lt_map_range' ?_ 1 _
    intro i j hij
    have hc : (i : ℚ) < (j : ℚ) := by exact_mod_cast hij
    nlinarith
  · intro d hd
    obtain ⟨i, hi, rfl⟩ := List.mem_map.1 hd
    have hi2 := List.mem_range'_1.1 hi
    have hi1 : (1 : ℚ) ≤ (i : ℚ) := by exact_mod_cast hi2.1
    have hiu : (i : ℚ) < ((List.insertionSort gapLe (g0 :: rest)).length : ℚ) + 1 := by
      have : i < (List.insertionSort gapLe (g0 :: rest)).length + 1 := by omega
      exact_mod_cast this
    have hprod : (n - p) / (((List.insertionSort gapLe (g0 :: rest)).length : ℚ) + 1) *
        (((List.insertionSort gapLe (g0 :: rest)).length : ℚ) + 1) = n - p :=
      div_mul_cancel₀ _ (ne_of_gt hcast)
    constructor
    · nlinarith
    · nlinarith

theorem c10_gap_strict_between_witness :
    ((processGroup 0
      [⟨1,2,0,none, some (1,1), some (1,4), some 0, some 518400⟩,
       ⟨1,3,1,none, some (1,1), some (1,4), some 0, some 518400⟩]).map
        Prod.snd).Pairwise (· < ·) :=
  (c10_gap_strict_between 0
    [⟨1,2,0,none, some (1,1), some (1,4), some 0, some 518400⟩,
     ⟨1,3,1,none, some (1,1), some (1,4), some 0, some 518400⟩]
    ⟨1,2,0,none, some (1,1), some (1,4), some 0, some 518400⟩
    [⟨1,3,1,none, some (1,1), some (1,4), some 0, some 518400⟩]
    0 518400 rfl rfl rfl (by norm_num) (by decide)).1

theorem walkBack_snd_noair (anchor avg : ℚ) :
    ∀ (eps : List Episode) (base : Nat), (∀ e ∈ eps, e.first_aired = none) →
      (walkBack anchor avg base eps).map Prod.snd =
        (List.range' base eps.length).map
          (fun (i : Nat) => anchor - avg * (i : ℚ)) := by
  intro eps
  induction eps with
  | nil => intro base _; rfl
  | cons e t ih =>
    intro base hair
    have he : e.first_aired = none := hair e (by simp)
    simp only [walkBack, List.map_cons, List.length_cons,
      List.range'_succ base t.length 1]
    rw [ih (base + 1) (fun z hz => hair z (List.mem_cons_of_mem e hz))]
    congr 1
    simp [clampRaise, he]

theorem walkForward_snd_noair (anchor avg : ℚ) :
    ∀ (eps : List Episode) (base : Nat), (∀ e ∈ eps, e.first_aired = none) →
      (walkForward anchor avg base eps).map Prod.snd =
        (List.range' base eps.length).map
          (fun (i : Nat) => anchor + avg * (i : ℚ)) := by
  intro eps
  induction eps with
  | nil => intro base _; rfl
  | cons e t ih =>
    intro base hair
    have he : e.first_aired = none := hair e (by simp)
    simp only [walkForward, List.map_cons, List.length_cons,
      List.range'_succ base t.length 1]
    rw [ih (base + 1) (fun z hz => hair z (List.mem_cons_of_mem e hz))]
    congr 1
    simp [clampRaise, he]

theorem pairwise_ge_map_range' {f : Nat → ℚ} (hf : ∀ i j, i ≤ j → f j ≤ f i)
    (s len : Nat) :
    ((List.range' s len).map f).Pairwise (fun a b => b ≤ a) := by
  rw [List.pairwise_map]
  exact (pairwise_lt_range' len s).imp (fun h => hf _ _ (Nat.le_of_lt h))

theorem beginning_pairwise_aux (a avg : ℚ) (eps2 : List Episode)
    (hair : ∀ e ∈ eps2, e.first_aired = none) (havg : 0 ≤ avg) :
    (((walkBack a avg 1 eps2).reverse).map Prod.snd).Pairwise (· ≤ ·) := by
  rw [List.map_reverse]
  rw [walkBack_snd_noair a avg eps2 1 hair]
  rw [List.pairwise_reverse]
  refine pairwise_ge_map_range' ?_ 1 _
  intro i j hij
  have hc : (i : ℚ) ≤ (j : ℚ) := by exact_mod_cast hij
  nlinarith

/-- C3 counterexample: a prev-anchored run of two gaps where the first
carries a far-future air date is clamped upward past the second, so the
synthesized timestamps are not non-decreasing in episode order. -/
theorem c3_monotonicity_counterexample :
    ((processGroup 0
      [⟨1,2,0, some 8640000, some (1,1), none, some 0, none⟩,
       ⟨1,3,1, none, some (1,1), none, some 0, none⟩]).map Prod.snd =
      [8683200, 345600]) ∧
    ¬ (((processGroup 0
      [⟨1,2,0, some 8640000, some (1,1), none, some 0, none⟩,
       ⟨1,3,1, none, some (1,1), none, some 0, none⟩]).map Prod.snd).Pairwise
        (· ≤ ·)) := by
  have h : (processGroup 0
      [⟨1,2,0, some 8640000, some (1,1), none, some 0, none⟩,
       ⟨1,3,1, none, some (1,1), none, some 0, none⟩]).map Prod.snd =
      [8683200, 345600] := by
    norm_num [processGroup, assignPrevOnly, clampRaise, List.insertionSort,
      List.orderedInsert, gapLe, keyLe, GapInfo.key, day, hour]
  refine ⟨h, ?_⟩
  rw [h]
  intro hp
  have := (List.pairwise_cons.1 hp).1 345600 (by simp)
  norm_num at this

/-- C3 amended: within one region the synthesized timestamps are
non-decreasing with episode order provided no episode of the region has
a parseable air date (so the clamp never fires), the run anchors satisfy
prev <= next when both are known, and the average interval is
non-negative for the beginning/ending extrapolations. -/
theorem c3_monotone_amended :
    (∀ (now : ℚ) (group : List GapInfo),
      (∀ g ∈ group, g.first_aired = none) →
      (∀ g0 ∈ group.head?, ∀ p ∈ g0.prev_watched_at, ∀ n ∈ g0.next_watched_at,
        p ≤ n) →
      ((processGroup now group).map Prod.snd).Pairwise (· ≤ ·)) ∧
    (∀ (now : ℚ) (eps : List Episode) (fw : Option ℚ) (avg : ℚ),
      (∀ e ∈ eps, e.first_aired = none) → 0 ≤ avg →
      ((calculateDatesForBeginning now eps fw avg).map Prod.snd).Pairwise
        (· ≤ ·)) ∧
    (∀ (now : ℚ) (eps : List Episode) (lw : Option ℚ) (avg : ℚ),
      (∀ e ∈ eps, e.first_aired = none) → 0 ≤ avg →
      ((calculateDatesForEnding now eps lw avg).map Prod.snd).Pairwise
        (· ≤ ·)) := by
  refine ⟨?_, ?_, ?_⟩
  · intro now group hair hanchors
    match group with
    | [] => simp [processGroup]
    | g0 :: rest =>
      simp only [processGroup]
      have hairs : ∀ g ∈ List.insertionSort gapLe (g0 :: rest),
          g.first_aired = none :=
        fun g hgm => hair g ((List.perm_insertionSort gapLe (g0 :: rest)).subset hgm)
      have hday : (0 : ℚ) ≤ day := by norm_num [day]
      rcases hp : g0.prev_watched_at with _ | p <;>
        rcases hn : g0.next_watched_at with _ | n
      · rw [assignNeither_snd_noair _ _ _ _ hairs]
        refine pairwise_le_map_range' ?_ 0 _
        intro i j hij
        have hc : (i : ℚ) ≤ (j : ℚ) := by exact_mod_cast hij
        nlinarith
      · rw [assignNextOnly_snd_noair _ _ _ _ hairs]
        refine pairwise_le_map_range' ?_ 0 _
        intro i j hij
        have hc : (i : ℚ) ≤ (j : ℚ) := by exact_mod_cast hij
        nlinarith
      · rw [assignPrevOnly_snd_noair _ _ _ hairs]
        refine pairwise_le_map_range' ?_ 1 _
        intro i j hij
        have hc : (i : ℚ) ≤ (j : ℚ) := by exact_mod_cast hij
        nlinarith
      · have hpn : p ≤ n := hanchors g0 (by simp) p (by simp [hp]) n (by simp [hn])
        rw [assignBoth_snd_noair _ _ _ _ _ _ hairs]
        have hcast : (0 : ℚ) <
            ((List.insertionSort gapLe (g0 :: rest)).length : ℚ) + 1 := by
          positivity
        have hint : 0 ≤ (n - p) /
            (((List.insertionSort gapLe (g0 :: rest)).length : ℚ) + 1) :=
          div_nonneg (by linarith) (le_of_lt hcast)
        refine pairwise_le_map_range' ?_ 1 _
        intro i j hij
        have hc : (i : ℚ) ≤ (j : ℚ) := by exact_mod_cast hij
        nlinarith
  · intro now eps fw avg hair havg
    simp only [calculateDatesForBeginning]
    have hairs : ∀ e ∈ (List.insertionSort epLe eps).reverse,
        e.first_aired = none := by
      intro e he
      exact hair e ((List.perm_insertionSort epLe eps).subset (List.mem_reverse.1 he))
    exact beginning_pairwise_aux _ avg _ hairs havg
  · intro now eps lw avg hair havg
    simp only [calculateDatesForEnding]
    have hairs : ∀ e ∈ List.insertionSort epLe eps, e.first_aired = none :=
      fun e he => hair e ((List.perm_insertionSort epLe eps).subset he)
    rw [walkForward_snd_noair _ avg _ 1 hairs]
    refine pairwise_le_map_range' ?_ 1 _
    intro i j hij
    have hc : (i : ℚ) ≤ (j : ℚ) := by exact_mod_cast hij
    nlinarith

theorem c3_monotone_amended_witness :
    ((calculateDatesForBeginning 0 [⟨1,1,0,none⟩, ⟨1,2,1,none⟩]
      (some 0) 86400).map Prod.snd).Pairwise (· ≤ ·) :=
  c3_monotone_amended.2.1 0 [⟨1,1,0,none⟩, ⟨1,2,1,none⟩] (some 0) 86400
    (by decide) (by norm_num)

/-- The clamp-to-air invariant for one synthesized pair: the date is no
earlier than 12 hours after the air date, whenever the latter is known. -/
def floorOk (air : Option ℚ) (d : ℚ) : Prop := ∀ a ∈ air, a + 12 * hour ≤ d

theorem floorOk_clampRaise (air : Option ℚ) (v : ℚ) :
    floorOk air (clampRaise air v) := by
  intro a ha
  cases air with
  | none => simp at ha
  | some b =>
    have hab : b = a := by simpa using ha
    subst hab
    simp only [clampRaise]
    split
    · exact le_refl _
    · rename_i h
      exact not_lt.1 h

theorem walkBack_mem_floor (anchor avg : ℚ) :
    ∀ (eps : List Episode) (base : Nat) (x : Episode × ℚ),
      x ∈ walkBack anchor avg base eps → floorOk x.1.first_aired x.2 := by
  intro eps
  induction eps with
  | nil => intro base x hx; simp [walkBack] at hx
  | cons e t ih =>
    intro base x hx
    rcases List.mem_cons.1 hx with rfl | hm
    · exact floorOk_clampRaise _ _
    · exact ih (base + 1) x hm

theorem walkForward_mem_floor (anchor avg : ℚ) :
    ∀ (eps : List Episode) (base : Nat) (x : Episode × ℚ),
      x ∈ walkForward anchor avg base eps → floorOk x.1.first_aired x.2 := by
  intro eps
  induction eps with
  | nil => intro base x hx; simp [walkForward] at hx
  | cons e t ih =>
    intro base x hx
    rcases List.mem_cons.1 hx with rfl | hm
    · exact floorOk_clampRaise _ _
    · exact ih (base + 1) x hm

theorem assignPrevOnly_mem_floor (p : ℚ) :
    ∀ (gs : List GapInfo) (base : Nat) (x : GapInfo × ℚ),
      x ∈ assignPrevOnly p base gs → floorOk x.1.first_aired x.2 := by
  intro gs
  induction gs with
  | nil => intro base x hx; simp [assignPrevOnly] at hx
  | cons g t ih =>
    intro base x hx
    rcases List.mem_cons.1 hx with rfl | hm
    · exact floorOk_clampRaise _ _
    · exact ih (base + 1) x hm

theorem assignNextOnly_mem_floor (n : ℚ) (cnt : Nat) :
    ∀ (gs : List GapInfo) (base : Nat) (x : GapInfo × ℚ),
      x ∈ assignNextOnly n cnt base gs → floorOk x.1.first_aired x.2 := by
  intro gs
  induction gs with
  | nil => intro base x hx; simp [assignNextOnly] at hx
  | cons g t ih =>
    intro base x hx
    rcases List.mem_cons.1 hx with rfl | hm
    · exact floorOk_clampRaise _ _
    · exact ih (base + 1) x hm

theorem assignNeither_mem_floor (now : ℚ) (cnt : Nat) :
    ∀ (gs : List GapInfo) (base : Nat) (x : GapInfo × ℚ),
      x ∈ assignNeither now cnt base gs → floorOk x.1.first_aired x.2 := by
  intro gs
  induction gs with
  | nil => intro base x hx; simp [assignNeither] at hx
  | cons g t ih =>
    intro base x hx
    rcases List.mem_cons.1 hx with rfl | hm
    · intro a ha
      cases hga : g.first_aired with
      | none => rw [hga] at ha; simp at ha
      | some b =>
        rw [hga] at ha
        have hab : b = a := by simpa using ha
        subst hab
        simp only [hga]
        have hmin : (1 : ℚ) ≤ ((min (base + 1) 7 : Nat) : ℚ) := by
          have : 1 ≤ min (base + 1) 7 := by omega
          exact_mod_cast this
        simp only [day, hour]
        linarith
    · exact ih (base + 1) x hm

theorem bothDate_floor (p n interval : ℚ) (cnt idx : Nat) (air : Option ℚ) :
    floorOk air (bothDate p n interval cnt idx air) ∨
      bothDate p n interval cnt idx air =
        n - 30 * minute * ((cnt : ℚ) - (idx : ℚ)) := by
  cases air with
  | none =>
    left
    intro a ha
    simp at ha
  | some a =>
    simp only [bothDate]
    split
    · right; rfl
    · left
      exact floorOk_clampRaise (some a) _

/-- C2 counterexample: a single both-anchored gap airing shortly before
the next anchor is clamped past `next` and reassigned
`next - 30*(count-i)` minutes, landing below the `air + 12h` floor:
with prev = 0, next = 3600 and air = 0 the synthesized date is 3600,
strictly below the floor 43200. -/
theorem c2_clamp_floor_counterexample :
    ((processGroup 0
      [⟨1,2,0, some 0, some (1,1), some (1,3), some 0, some 3600⟩]).map
      Prod.snd = [3600]) ∧ ((3600 : ℚ) < 0 + 12 * hour) := by
  constructor
  · norm_num [processGroup, assignBoth, bothDate, clampRaise,
      List.insertionSort, List.orderedInsert, gapLe, keyLe, GapInfo.key,
      hour, minute]
  · norm_num [hour]

/-- C2 amended: every synthesized timestamp respects the
`air + 12h` floor in beginning extrapolation, ending extrapolation, and
every gap branch except the both-anchors branch, where each date either
respects the floor or is the past-next reassignment
`next - 30*(count-i)` minutes; and whenever the proposed date falls below
the floor and the floor does not exceed the next anchor, the result is
the floor exactly. -/
theorem c2_clamp_floor_amended :
    (∀ (now : ℚ) (eps : List Episode) (fw : Option ℚ) (avg : ℚ),
      ∀ x ∈ calculateDatesForBeginning now eps fw avg,
        floorOk x.1.first_aired x.2) ∧
    (∀ (now : ℚ) (eps : List Episode) (lw : Option ℚ) (avg : ℚ),
      ∀ x ∈ calculateDatesForEnding now eps lw avg,
        floorOk x.1.first_aired x.2) ∧
    (∀ (now : ℚ) (group : List GapInfo) (g0 : GapInfo) (rest : List GapInfo),
      group = g0 :: rest →
      ¬(g0.prev_watched_at.isSome ∧ g0.next_watched_at.isSome) →
      ∀ x ∈ processGroup now group, floorOk x.1.first_aired x.2) ∧
    (∀ (now : ℚ) (group : List GapInfo) (g0 : GapInfo) (rest : List GapInfo)
      (p n : ℚ),
      group = g0 :: rest → g0.prev_watched_at = some p →
      g0.next_watched_at = some n →
      ∀ (j : Nat) (x : GapInfo × ℚ), (processGroup now group)[j]? = some x →
        floorOk x.1.first_aired x.2 ∨
          x.2 = n - 30 * minute *
            (((List.insertionSort gapLe group).length : ℚ) - ((j : ℚ) + 1))) ∧
    (∀ (p n interval : ℚ) (cnt idx : Nat) (a : ℚ),
      p + interval * (idx : ℚ) < a + 12 * hour → a + 12 * hour ≤ n →
      bothDate p n interval cnt idx (some a) = a + 12 * hour) := by
  refine ⟨?_, ?_, ?_, ?_, ?_⟩
  · intro now eps fw avg x hx
    simp only [calculateDatesForBeginning] at hx
    exact walkBack_mem_floor _ avg _ 1 x (List.mem_reverse.1 hx)
  · intro now eps lw avg x hx
    simp only [calculateDatesForEnding] at hx
    exact walkForward_mem_floor _ avg _ 1 x hx
  · intro now group g0 rest hg hnotboth x hx
    subst hg
    simp only [processGroup] at hx
    rcases hp : g0.prev_watched_at with _ | p <;>
      rcases hn : g0.next_watched_at with _ | n <;>
      rw [hp, hn] at hx
    · exact assignNeither_mem_floor now _ _ 0 x hx
    · exact assignNextOnly_mem_floor n _ _ 0 x hx
    · exact assignPrevOnly_mem_floor p _ 1 x hx
    · exact absurd (by rw [hp, hn]; exact ⟨rfl, rfl⟩) hnotboth
  · intro now group g0 rest p n hg hp hn j x hx
    subst hg
    simp only [processGroup, hp, hn] at hx
    rw [assignBoth_getElem?] at hx
    obtain ⟨g, hg2, rfl⟩ := Option.map_eq_some'.1 hx
    have hcast : ((1 + j : Nat) : ℚ) = (j : ℚ) + 1 := by push_cast; ring
    rcases bothDate_floor p n
        ((n - p) / (((List.insertionSort gapLe (g0 :: rest)).length : ℚ) + 1))
        (List.insertionSort gapLe (g0 :: rest)).length (1 + j)
        g.first_aired with h | h
    · exact Or.inl h
    · right
      rw [h, hcast]
  · intro p n interval cnt idx a hlt hle
    simp only [bothDate, clampRaise, if_pos hlt]
    rw [if_neg (not_lt.2 hle)]

theorem c2_clamp_floor_amended_witness :
    bothDate 0 86400 1800 1 1 (some 0) = 0 + 12 * hour :=
  c2_clamp_floor_amended.2.2.2.2 0 86400 1800 1 1 0 (by norm_num [hour])
    (by norm_num [hour])

theorem walkBack_length (anchor avg : ℚ) :
    ∀ (eps : List Episode) (base : Nat),
      (walkBack anchor avg base eps).length = eps.length := by
  intro eps
  induction eps with
  | nil => intro base; rfl
  | cons e t ih =>
    intro base
    simp only [walkBack, List.length_cons, ih (base + 1)]

theorem walkBack_getElem? (anchor avg : ℚ) :
    ∀ (eps : List Episode) (base j : Nat),
      (walkBack anchor avg base eps)[j]? =
        (eps[j]?).map (fun e =>
          (e, clampRaise e.first_aired (anchor - avg * ((base + j : Nat) : ℚ)))) := by
  intro eps
  induction eps with
  | nil =>
    intro base j
    simp [walkBack]
  | cons e t ih =>
    intro base j
    cases j with
    | zero => simp [walkBack]
    | succ k =>
      have harith : base + 1 + k = base + (k + 1) := by omega
      simp only [walkBack, List.getElem?_cons_succ]
      rw [ih (base + 1) k, harith]

/-- The anchor of beginning extrapolation, as the code computes it: the
first-watched timestamp when known, else the air date of the last
episode in ascending order having a parseable air date plus 30 days,
else the current time. -/
def beginningAnchor (now : ℚ) (sorted : List Episode) (fw : Option ℚ) : ℚ :=
  match fw with
  | some d => d
  | none =>
    match firstParseableAir sorted.reverse with
    | some la => la + 30 * day
    | none => now

/-- C7 counterexample: with no first-watched date and air dates that are
not monotone in episode order, the code anchors on the air date of the
last episode carrying one (5 days, episode (1,2)), not on the latest air
date of the set (10 days, episode (1,1)); the claim predicts
40d - 2d = 38d = 3283200 for episode (1,1), but the code yields
35d - 2d = 33d = 2851200. -/
theorem c7_beginning_anchor_counterexample :
    ((calculateDatesForBeginning 0
      [⟨1,1,0, some 864000⟩, ⟨1,2,1, some 432000⟩] none 86400).map
      Prod.snd = [2851200, 2937600]) ∧
    ((864000 : ℚ) + 30 * day - 86400 * 2 = 3283200) ∧
    ((2851200 : ℚ) ≠ 3283200) := by
  refine ⟨?_, by norm_num [day], by norm_num⟩
  norm_num [calculateDatesForBeginning, walkBack, clampRaise,
    firstParseableAir, List.insertionSort, List.orderedInsert, epLe, keyLe,
    Episode.key, day, hour]

theorem beginning_getElem_aux (a avg : ℚ) (sorted : List Episode) (j : Nat)
    (hj : j < sorted.length) :
    ((walkBack a avg 1 sorted.reverse).reverse)[j]? =
      (sorted[j]?).map (fun e =>
        (e, clampRaise e.first_aired
          (a - avg * (((sorted.length - j : Nat)) : ℚ)))) := by
  have hlw : (walkBack a avg 1 sorted.reverse).length = sorted.length := by
    rw [walkBack_length, List.length_reverse]
  have hj2 : j < (walkBack a avg 1 sorted.reverse).length := by
    rw [hlw]; exact hj
  rw [List.getElem?_reverse hj2, walkBack_getElem?, hlw]
  have hrev : (sorted.reverse)[sorted.length - 1 - j]? = sorted[j]? := by
    rw [List.getElem?_reverse (by omega)]
    congr 1
    omega
  rw [hrev]
  have hidx : 1 + (sorted.length - 1 - j) = sorted.length - j := by omega
  rw [hidx]

/-- C7 amended: beginning extrapolation sorts ascending, anchors on the
first-watched timestamp if known, else on the air date of the last
episode in ascending order with a known air date plus 30 days if any,
else the current time; the episode at reverse-position `i` (1-indexed
from the watched boundary) gets `anchor - avg*i`, then clamp-to-air; in
particular with anchor 31d, 2-day interval and three airless episodes
the dates are 25d, 27d, 29d (2024-01-26/28/30 for anchor 2024-02-01). -/
theorem c7_beginning_formula_amended :
    (∀ (now : ℚ) (eps : List Episode) (fw : Option ℚ) (avg : ℚ) (j : Nat),
      j < (List.insertionSort epLe eps).length →
      (calculateDatesForBeginning now eps fw avg)[j]? =
        ((List.insertionSort epLe eps)[j]?).map (fun e =>
          (e, clampRaise e.first_aired
            (beginningAnchor now (List.insertionSort epLe eps) fw -
              avg * ((((List.insertionSort epLe eps).length - j : Nat)) : ℚ))))) ∧
    ((calculateDatesForBeginning 0
      [⟨1,1,0,none⟩, ⟨1,2,1,none⟩, ⟨1,3,2,none⟩]
      (some (31 * day)) (2 * day)).map Prod.snd =
      [25 * day, 27 * day, 29 * day]) := by
  constructor
  · intro now eps fw avg j hj
    simp only [calculateDatesForBeginning, beginningAnchor]
    exact beginning_getElem_aux _ avg _ j hj
  · norm_num [calculateDatesForBeginning, walkBack, clampRaise,
      firstParseableAir, List.insertionSort, List.orderedInsert, epLe, keyLe,
      Episode.key, day]

theorem c7_beginning_formula_witness :
    (calculateDatesForBeginning 0 [⟨1,1,0,none⟩] (some 86400) 3600)[0]? =
      some (⟨1,1,0,none⟩, 82800) := by
  have h := c7_beginning_formula_amended.1 0 [⟨1,1,0,none⟩] (some 86400) 3600 0
    (by simp [List.length_insertionSort])
  rw [h]
  norm_num [beginningAnchor, clampRaise, List.insertionSort, List.orderedInsert,
    epLe, keyLe, Episode.key]

theorem c4_gap_interpolation_witness :
    ((processGroup 0
      [⟨1,2,0,none, some (1,1), some (1,3), some 0, some (4*day)⟩])[0]? =
      some (⟨1,2,0,none, some (1,1), some (1,3), some 0, some (4*day)⟩,
        2 * day)) ∧
    (calculateIntelligentDatesForGaps 0
      [⟨1,2,0,none, some (1,1), some (1,3), some 0, some (4*day)⟩] =
      processGroup 0
        [⟨1,2,0,none, some (1,1), some (1,3), some 0, some (4*day)⟩]) := by
  constructor
  · have h := c4_gap_interpolation_formula.1 0
      [⟨1,2,0,none, some (1,1), some (1,3), some 0, some (4*day)⟩]
      ⟨1,2,0,none, some (1,1), some (1,3), some 0, some (4*day)⟩ []
      0 (4*day) rfl rfl rfl 0
    rw [h]
    norm_num [gapDateSpec, List.insertionSort, List.orderedInsert, gapLe,
      keyLe, GapInfo.key, day]
  · exact c4_gap_interpolation_formula.2.1 0
      [⟨1,2,0,none, some (1,1), some (1,3), some 0, some (4*day)⟩]
      ⟨1,2,0,none, some (1,1), some (1,3), some 0, some (4*day)⟩ []
      rfl (by decide)

/-!
## Selection parser: claim C8
-/

/-- Whether a token parses without raising `ValueError`. -/
def tokenOk (maxNum : Int) (t : PyStr) : Bool :=
  match tokenResult maxNum t with
  | .ok _ => true
  | .error _ => false

/-- The per-token selection a token contributes when it does not raise. -/
def okResult (maxNum : Int) (t : PyStr) : List (Int × PyStr) :=
  match tokenResult maxNum t with
  | .ok l => l
  | .error _ => []

/-- C8 counterexample: the unsupported-modifier token `5x` raises
`ValueError` inside the shared try block, so `parse_selection "1 5x"`
returns the empty list, discarding the valid token `1` that alone would
yield `[(1, "")]`: token processing is not independent. -/
theorem c8_token_abort_counterexample :
    (parseSelection ['1', ' ', '5', 'x'] 10 = []) ∧
    (((1 : Int), ([] : PyStr)) ∉ parseSelection ['1', ' ', '5', 'x'] 10) ∧
    (parseSelection ['1'] 10 = [(1, [])]) :=
  ⟨by decide, by decide, by decide⟩

/-- C8 amended: tokens whose integer conversions succeed are processed
independently: the selection is the concatenation of per-token results,
and out-of-range numbers or ranges contribute an empty result (skipped
with a warning); but a token that raises `ValueError` (such as the
unsupported modifier `5x`) aborts the whole parse, which returns the
empty list; a range token with modifier such as `1-3be` expands to
(1,be),(2,be),(3,be). -/
theorem c8_selection_amended :
    (∀ (maxNum : Int) (ts : List PyStr),
      (∀ t ∈ ts, tokenOk maxNum t = true) →
      selectionLoop maxNum ts = .ok (ts.flatMap (okResult maxNum))) ∧
    (∀ (maxNum : Int) (ts : List PyStr),
      (∃ t ∈ ts, tokenResult maxNum t = .error ()) →
      selectionLoop maxNum ts = .error ()) ∧
    (parseSelection ['1','-','3','b','e'] 10 =
      [(1, ['b','e']), (2, ['b','e']), (3, ['b','e'])]) ∧
    (parseSelection ['1',' ','9','9',' ','2'] 10 = [(1, []), (2, [])]) := by
  refine ⟨?_, ?_, by decide, by decide⟩
  · intro maxNum ts
    induction ts with
    | nil => intro _; rfl
    | cons t rest ih =>
      intro hall
      have ht := hall t (by simp)
      rcases htr : tokenResult maxNum t with e | r
      · rw [tokenOk, htr] at ht
        simp at ht
      · simp only [selectionLoop, htr]
        rw [ih (fun z hz => hall z (List.mem_cons_of_mem t hz))]
        simp [okResult, htr]
  · intro maxNum ts
    induction ts with
    | nil =>
      intro hex
      simp at hex
    | cons t rest ih =>
      intro hex
      rcases htr : tokenResult maxNum t with e | r
      · simp only [selectionLoop, htr]
      · simp only [selectionLoop, htr]
        have hex2 : ∃ z ∈ rest, tokenResult maxNum z = .error () := by
          rcases hex with ⟨z, hz, hze⟩
          rcases List.mem_cons.1 hz with rfl | hzm
          · rw [htr] at hze
            exact absurd hze (by simp)
          · exact ⟨z, hzm, hze⟩
        rw [ih hex2]

theorem c8_selection_amended_witness :
    (selectionLoop 10 [['1']] = .ok [((1 : Int), ([] : PyStr))]) ∧
    (selectionLoop 10 [['5', 'x']] = .error ()) := by
  constructor
  · have h := c8_selection_amended.1 10 [['1']] (by decide)
    rw [h]
    rfl
  · exact c8_selection_amended.2.1 10 [['5', 'x']] ⟨['5', 'x'], by simp, rfl⟩
